import Mathlib

/-!
Verification development for the ai-story-game HTTP backend (server.js).

The code side is a shallow embedding of the moderation sanitizer
(`BAD_WORDS`, `maskWord`, `sanitizeText`), the drama-level mapping
(`mapDramaToTemp`, `dramaInstructions`), the message assembly and the
`/api/continue` handler, and the drama coercion of the
`/api/storyboard/share` handler.  Strings are lists of unicode scalar
characters; JavaScript regular-expression matching of `\b<word>\b` with
the `gi` flags is embedded as an explicit left-to-right scan
(`scanAux`), where `\w` is an ASCII alphanumeric character or an
underscore and the `i` flag compares characters through `Char.toLower`
(the banned words are all lowercase ASCII).  `JSON.parse` is external
library code: the `/api/continue` handler is embedded as a function of
the upstream status, the raw body, and the parse result of that body
(`none` when `JSON.parse` throws).
-/

namespace StoryGame

/-- Vowel class of the regex `/[aeiou]/gi` used by `maskWord`. -/
def isVowel (c : Char) : Bool :=
  c == 'a' || c == 'e' || c == 'i' || c == 'o' || c == 'u' ||
  c == 'A' || c == 'E' || c == 'I' || c == 'O' || c == 'U'

/-- One character of `maskWord`: vowels become a literal asterisk. -/
def maskChar (c : Char) : Char := if isVowel c then '*' else c

/-- `maskWord` from server.js: `w.replace(/[aeiou]/gi, '*')`. -/
def maskWord (w : List Char) : List Char := w.map maskChar

/-- JavaScript regex word character `\w`, i.e. `[A-Za-z0-9_]`. -/
def isWordChar (c : Char) : Bool := c.isAlphanum || c == '_'

/-- The `BAD_WORDS` list of server.js, in source order. -/
def BAD_WORDS : List (List Char) :=
  [("fuck").data, ("shit").data, ("bitch").data, ("bastard").data, ("asshole").data,
   ("dick").data, ("pussy").data, ("cunt").data, ("slut").data, ("whore").data,
   ("faggot").data, ("retard").data, ("motherfucker").data, ("fucker").data, ("fucking").data]

/-- Case-insensitive match of the pattern word against the front of the text,
mirroring the `i` flag (pattern letters are lowercase ASCII). -/
def ciStarts : List Char → List Char → Bool
  | [], _ => true
  | _ :: _, [] => false
  | b :: bs, c :: cs => (c.toLower == b) && ciStarts bs cs

/-- Word-boundary condition `\b` after a match: next character, if any, is not `\w`. -/
def headNonWord : List Char → Bool
  | [] => true
  | c :: _ => !isWordChar c

/-- Word-boundary condition `\b` before a match, given the previous character
(`none` at the start of the string). -/
def bdryP : Option Char → Bool
  | none => true
  | some c => !isWordChar c

/-- The original character at the last position of a match of `c :: take k cs`:
the scan resumes after it, so the next boundary test reads it. -/
def lastOfMatch (c : Char) (cs : List Char) (k : Nat) : Char :=
  if k = 0 then c else cs.getD (k - 1) c

/-- Left-to-right global-replace scan of `out.replace(new RegExp("\\b" + bw + "\\b", "gi"),
(m) => maskWord(m))` for one banned word `b :: bs`.  The fuel argument makes the
recursion structural; `replaceBW` supplies fuel equal to the text length, which
is always sufficient since every step consumes at least one character. -/
def scanAux (b : Char) (bs : List Char) : Nat → Option Char → List Char → List Char
  | _, _, [] => []
  | 0, _, s => s
  | fuel + 1, prev, c :: cs =>
    if bdryP prev && (c.toLower == b) && ciStarts bs cs && headNonWord (List.drop bs.length cs) then
      maskChar c :: (maskWord (List.take bs.length cs) ++
        scanAux b bs fuel (some (lastOfMatch c cs bs.length)) (List.drop bs.length cs))
    else
      c :: scanAux b bs fuel (some c) cs

/-- One iteration of the `for (const bw of BAD_WORDS)` loop body of `sanitizeText`.
Every element of `BAD_WORDS` is nonempty; the empty-pattern case is vacuous. -/
def replaceBW (bw : List Char) (s : List Char) : List Char :=
  match bw with
  | [] => s
  | b :: bs => scanAux b bs s.length none s

/-- The loop of `sanitizeText` on a nonempty text, word by word in list order. -/
def sanitizeList (s : List Char) : List Char :=
  List.foldl (fun out bw => replaceBW bw out) s BAD_WORDS

/-- `sanitizeText` on an actual string (the `if (!text) return text` guard keeps
the empty string unchanged). -/
def sanitizeTextS (t : String) : String :=
  if t = "" then t else String.mk (sanitizeList t.data)

/-- `sanitizeText` on a possibly absent argument: `null`/`undefined` is returned
unchanged by the `if (!text) return text` guard. -/
def sanitizeTextO : Option String → Option String
  | none => none
  | some t => some (sanitizeTextS t)

/-- Lowercase ASCII letter (the character class of every banned word). -/
def lcAlpha (c : Char) : Bool := 'a' ≤ c && c ≤ 'z'

/-- A banned word is nonempty, all lowercase ASCII letters, and contains a vowel. -/
def goodWord (bw : List Char) : Bool := !bw.isEmpty && bw.all lcAlpha && bw.any isVowel

/-- Spec-side left boundary of a whole-word occurrence at position `j`. -/
def leftOk (prev : Option Char) (s : List Char) : Nat → Bool
  | 0 => bdryP prev
  | j + 1 =>
    match s[j]? with
    | some c => !isWordChar c
    | none => false

/-- Modelled from the spec: a case-insensitive whole-word occurrence of the term
`bw` at position `j` of the text (with `prev` the character before the scanned
suffix, `none` at string start). -/
def occAt (bw : List Char) (prev : Option Char) (s : List Char) (j : Nat) : Bool :=
  leftOk prev s j && ciStarts bw (s.drop j) && headNonWord (s.drop (j + bw.length))

/-- Position `i` lies inside some whole-word occurrence of the term `bw`. -/
def coveredW (bw : List Char) (prev : Option Char) (s : List Char) (i : Nat) : Bool :=
  (List.range (i + 1)).any fun j => occAt bw prev s j && decide (i < j + bw.length)

/-- Position `i` lies inside a whole-word occurrence of some banned term. -/
def bannedCovered (s : List Char) (i : Nat) : Bool :=
  BAD_WORDS.any fun bw => coveredW bw none s i

/-- Position `i` is masked after processing the terms of `W`: it is a vowel
inside a whole-word occurrence of a term of `W`. -/
def maskedPos (W : List (List Char)) (s : List Char) (i : Nat) : Bool :=
  (W.any fun bw => coveredW bw none s i) && isVowel (s.getD i '*')

/-- Modelled from the spec: the text in which each vowel lying inside a
case-insensitive whole-word occurrence of a term of `W` is replaced by an
asterisk and every other character is unchanged. -/
def stateW (W : List (List Char)) (s : List Char) : List Char :=
  (List.range s.length).map fun i => if maskedPos W s i then '*' else s.getD i '*'

/-- Modelled from the spec: the sanitizer output described by the specification,
over the full banned-term list. -/
def sanitizeSpec (s : List Char) : List Char := stateW BAD_WORDS s

/-- `mapDramaToTemp` of server.js, after the `String(drama)` coercion;
temperatures are exact decimal values. -/
def mapDramaToTemp (drama : String) : ℚ :=
  if drama = "1" then 0.4
  else if drama = "2" then 0.55
  else if drama = "3" then 0.7
  else if drama = "4" then 0.85
  else if drama = "5" then 1.0
  else 0.7

/-- `dramaInstructions` of server.js, after the `String(drama)` coercion. -/
def dramaInstructions (drama : String) : String :=
  if drama = "1" then "Narration style: Very plain and simple. Short sentences. Minimal description."
  else if drama = "2" then "Narration style: Simple narration with occasional description."
  else if drama = "3" then "Narration style: Balanced detail. Moderate description, engaging but not theatrical."
  else if drama = "4" then "Narration style: Dramatic with vivid imagery and suspense."
  else if drama = "5" then "Narration style: Highly dramatic and theatrical. Rich detail and powerful emotions."
  else "Narration style: Balanced detail, engaging but not theatrical."

/-- One chat message `{ role, content }`. -/
structure ChatMsg where
  role : String
  content : String
deriving DecidableEq

/-- The trimmed `baseStyle` template literal of the `/api/continue` handler. -/
def baseStyle : String :=
  "You are the NARRATOR of a text-adventure game.\n\nSTYLE:\n- Present tense.\n- PG-13; no slurs or explicit sexual content.\n- Never mention you are an AI. Never break the fourth wall.\n- Always continue directly from the player\x27s last turn."

/-- The mood clause template appended when the mood is not the default sentinel. -/
def moodClause (m : String) : String :=
  "\n\nMood/Genre: This is a " ++ m ++ " story. Match your narration to " ++ m ++
    " conventions, tone, and atmosphere."

/-- `styleMood`: the clause is appended exactly when `mood` is truthy and not
the literal sentinel, `(mood && mood !== 'default') ? ... : ''`. -/
def styleMood (m : String) : String :=
  if m ≠ "" ∧ m ≠ "default" then moodClause m else ""

/-- The `messages` array assembled by the `/api/continue` handler: the composed
system message, the caller history spread in order, then the new user turn.
An absent `mood` field defaults to the sentinel by destructuring. -/
def continueMessages (history : List ChatMsg) (userTurn : String) (mood : Option String)
    (drama : String) : List ChatMsg :=
  ChatMsg.mk ("system")
      (baseStyle ++ styleMood (mood.getD ("default")) ++ ("\n\n") ++ dramaInstructions drama) ::
    (history ++ [ChatMsg.mk ("user") userTurn])

/-- JSON values, as produced by `JSON.parse` (numbers as exact rationals). -/
inductive JVal where
  | null : JVal
  | bool : Bool → JVal
  | num : ℚ → JVal
  | str : String → JVal
  | arr : List JVal → JVal
  | obj : List (String × JVal) → JVal

/-- Lookup of an object property by key. -/
def lookupKey : List (String × JVal) → String → Option JVal
  | [], _ => none
  | (k, v) :: rest, key => if k = key then some v else lookupKey rest key

/-- JavaScript member access `v.key` on a non-null value: `none` is `undefined`. -/
def propOf (v : JVal) (key : String) : Option JVal :=
  match v with
  | JVal.obj kvs => lookupKey kvs key
  | _ => none

/-- JavaScript indexing `v[0]` on a non-null value: arrays yield their head,
strings their first character, objects their property named zero. -/
def indexZero (v : JVal) : Option JVal :=
  match v with
  | JVal.arr l => l.head?
  | JVal.obj kvs => lookupKey kvs ("0")
  | JVal.str s => if s = "" then none else some (JVal.str (String.mk [s.data.headD ' ']))
  | _ => none

/-- JavaScript truthiness of a JSON value. -/
def truthy : JVal → Bool
  | JVal.null => false
  | JVal.bool b => b
  | JVal.num q => decide (q ≠ 0)
  | JVal.str s => decide (s ≠ "")
  | JVal.arr _ => true
  | JVal.obj _ => true

/-- Null test used to model the short-circuit of the optional chaining `?.`. -/
def isNullJ : JVal → Bool
  | JVal.null => true
  | _ => false

/-- The secondary extraction `data.output && data.output[0]?.content?.[0]?.text`:
the answer is the value of the nested text path, `none` when the chain
short-circuits or the output field is falsy. -/
def nestedPath (data : JVal) : Option JVal :=
  match propOf data ("output") with
  | none => none
  | some ov =>
    if truthy ov then
      match indexZero ov with
      | none => none
      | some a =>
        if isNullJ a then none
        else
          match propOf a ("content") with
          | none => none
          | some bv =>
            if isNullJ bv then none
            else
              match indexZero bv with
              | none => none
              | some cv => if isNullJ cv then none else propOf cv ("text")
    else none

/-- The initial placeholder of the handler variable `text`, a horizontal ellipsis. -/
def ellipsisText : String := "…"

/-- Value of the nested-path attempt, falling back to the ellipsis placeholder. -/
def nestedOr (data : JVal) : JVal :=
  match nestedPath data with
  | some w => if truthy w then w else JVal.str ellipsisText
  | none => JVal.str ellipsisText

/-- The `text` variable after the `try { JSON.parse ... } catch {}` block:
the ellipsis placeholder when parsing throws or when `data` is `null` (member
access throws, caught by the inner catch); otherwise a truthy `output_text`
field, else a truthy nested text, else the placeholder. -/
def extractTextVal (parsed : Option JVal) : JVal :=
  match parsed with
  | none => JVal.str ellipsisText
  | some JVal.null => JVal.str ellipsisText
  | some data =>
    match propOf data ("output_text") with
    | some v => if truthy v then v else nestedOr data
    | none => nestedOr data

/-- JavaScript `String.prototype.trim` whitespace (ECMA-262 WhiteSpace and
LineTerminator code points). -/
def jsWS (c : Char) : Bool :=
  let n := c.toNat
  n == 9 || n == 10 || n == 11 || n == 12 || n == 13 || n == 32 || n == 160 ||
  n == 5760 || (8192 ≤ n && n ≤ 8202) || n == 8232 || n == 8233 || n == 8239 ||
  n == 8287 || n == 12288 || n == 65279

/-- JavaScript `s.trim()`. -/
def jsTrim (s : String) : String :=
  String.mk (((s.data.dropWhile jsWS).reverse.dropWhile jsWS).reverse)

/-- The fixed fallback sentence of the `/api/continue` handler. -/
def fallbackSentence : String := "The narrator hesitates, then continues cautiously. (Fallback)"

/-- The upstream completion-service response as observed by the handler:
HTTP success flag, raw body text, and the outcome of `JSON.parse` on that
body (`none` when parsing throws). -/
structure UpstreamResponse where
  ok : Bool
  raw : String
  parsed : Option JVal

/-- The response envelope produced by the `/api/continue` handler. -/
structure ApiResponse where
  status : Nat
  errorField : Option String
  textField : Option String
deriving DecidableEq

/-- The `/api/continue` handler after the upstream call: a non-ok status yields
the 500 envelope carrying the raw body; otherwise the extracted text goes
through the empty/blank fallback check, is sanitized and returned, except that
a truthy non-string extraction makes `text.trim()` throw, which the outer catch
converts to the generic 500 envelope. -/
def continueHandler (resp : UpstreamResponse) : ApiResponse :=
  if resp.ok = false then
    ApiResponse.mk 500 (some (("OpenAI error: ") ++ resp.raw)) none
  else
    match extractTextVal resp.parsed with
    | JVal.str s =>
      ApiResponse.mk 200 none
        (some (sanitizeTextS (if s = "" ∨ jsTrim s = "" then fallbackSentence else s)))
    | _ => ApiResponse.mk 500 (some ("Server error")) (some ("(Server fallback)"))

/-- The extraction yields nothing: the body did not parse, or `data` is `null`,
or neither the `output_text` field nor the nested text path is truthy. -/
def yieldsNoText (parsed : Option JVal) : Prop :=
  match parsed with
  | none => True
  | some d =>
    d = JVal.null ∨
      ((∀ v, propOf d ("output_text") = some v → truthy v = false) ∧
       (∀ w, nestedPath d = some w → truthy w = false))

/-- The stored `drama` of the `/api/storyboard/share` handler, as a function of
the `Number(drama)` coercion (`none` is `NaN`): `Number(drama) || 3`. -/
def shareStoredDrama (dramaNum : Option ℚ) : ℚ :=
  match dramaNum with
  | none => 3
  | some q => if q = 0 then 3 else q

end StoryGame

namespace StoryGame

theorem isWordChar_of_lcAlpha {c : Char} (h : lcAlpha c = true) : isWordChar c = true := by
  simp only [lcAlpha, Bool.and_eq_true, decide_eq_true_eq] at h
  simp only [isWordChar, Char.isAlphanum, Char.isAlpha, Char.isLower, Char.isUpper,
    Bool.or_eq_true, Bool.and_eq_true, decide_eq_true_eq]
  left; left; right
  rcases h with ⟨h1, h2⟩
  constructor
  · exact h1
  · exact h2

theorem isUpper_isWordChar {c : Char} (h1 : 65 ≤ c.toNat) (h2 : c.toNat ≤ 90) :
    isWordChar c = true := by
  simp only [isWordChar, Char.isAlphanum, Char.isAlpha, Char.isUpper, Bool.or_eq_true,
    Bool.and_eq_true, decide_eq_true_eq]
  left; left; left
  constructor
  · exact UInt32.le_def.mpr (by simpa [Char.toNat] using h1)
  · exact UInt32.le_def.mpr (by simpa [Char.toNat] using h2)

theorem toLower_shape (c : Char) :
    c.toLower = c ∨ (65 ≤ c.toNat ∧ c.toNat ≤ 90 ∧ c.toLower.toNat = c.toNat + 32) := by
  have hdef : c.toLower = if 65 ≤ c.toNat ∧ c.toNat ≤ 90 then Char.ofNat (c.toNat + 32) else c :=
    rfl
  by_cases h : 65 ≤ c.toNat ∧ c.toNat ≤ 90
  · right
    refine ⟨h.1, h.2, ?_⟩
    have hvalid : (c.toNat + 32).isValidChar := by left; omega
    rw [hdef, if_pos h]
    unfold Char.ofNat
    rw [dif_pos hvalid]
    rfl
  · left
    rw [hdef, if_neg h]

theorem wordChar_of_toLower {b c : Char} (hb : lcAlpha b = true) (h : c.toLower = b) :
    isWordChar c = true := by
  rcases toLower_shape c with hs | ⟨h1, h2, _⟩
  · rw [hs] at h; subst h; exact isWordChar_of_lcAlpha hb
  · exact isUpper_isWordChar h1 h2

theorem char_eq_of_toNat {c : Char} {n : Nat} (h : c.toNat = n) : c = Char.ofNat n := by
  subst h; exact (Char.ofNat_toNat c).symm

theorem vowel_of_toLower {b c : Char} (hb : isVowel b = true) (h : c.toLower = b) :
    isVowel c = true := by
  rcases toLower_shape c with hs | ⟨h1, h2, h3⟩
  · rw [hs] at h; subst h; exact hb
  · rw [h] at h3
    simp only [isVowel, Bool.or_eq_true, beq_iff_eq] at hb
    rcases hb with ((((((((hv | hv) | hv) | hv) | hv) | hv) | hv) | hv) | hv) | hv <;> subst hv
    · have hn : c.toNat = 65 := by
        have ha : Char.toNat 'a' = 97 := rfl
        omega
      rw [char_eq_of_toNat hn]; decide
    · have hn : c.toNat = 69 := by
        have ha : Char.toNat 'e' = 101 := rfl
        omega
      rw [char_eq_of_toNat hn]; decide
    · have hn : c.toNat = 73 := by
        have ha : Char.toNat 'i' = 105 := rfl
        omega
      rw [char_eq_of_toNat hn]; decide
    · have hn : c.toNat = 79 := by
        have ha : Char.toNat 'o' = 111 := rfl
        omega
      rw [char_eq_of_toNat hn]; decide
    · have hn : c.toNat = 85 := by
        have ha : Char.toNat 'u' = 117 := rfl
        omega
      rw [char_eq_of_toNat hn]; decide
    · exfalso
      have ha : Char.toNat 'A' = 65 := rfl
      omega
    · exfalso
      have ha : Char.toNat 'E' = 69 := rfl
      omega
    · exfalso
      have ha : Char.toNat 'I' = 73 := rfl
      omega
    · exfalso
      have ha : Char.toNat 'O' = 79 := rfl
      omega
    · exfalso
      have ha : Char.toNat 'U' = 85 := rfl
      omega

theorem wordChar_of_isVowel {c : Char} (h : isVowel c = true) : isWordChar c = true := by
  simp only [isVowel, Bool.or_eq_true, beq_iff_eq] at h
  rcases h with ((((((((h | h) | h) | h) | h) | h) | h) | h) | h) | h <;> subst h <;> decide

theorem star_not_toLower {b : Char} (hb : lcAlpha b = true) : ('*').toLower ≠ b := by
  intro h
  have : ('*').toLower = '*' := rfl
  rw [this] at h
  subst h
  exact absurd hb (by decide)

theorem ciStarts_length {bw l : List Char} (h : ciStarts bw l = true) : bw.length ≤ l.length := by
  induction bw generalizing l with
  | nil => simp
  | cons b bs ih =>
    cases l with
    | nil => simp [ciStarts] at h
    | cons c cs =>
      simp only [ciStarts, Bool.and_eq_true] at h
      simpa [List.length_cons, Nat.succ_le_succ_iff] using ih h.2

theorem ciStarts_iff_getElem {bw l : List Char} :
    ciStarts bw l = true ↔
      (bw.length ≤ l.length ∧ ∀ k, k < bw.length → (l[k]?).map Char.toLower = bw[k]?) := by
  induction bw generalizing l with
  | nil => simp [ciStarts]
  | cons b bs ih =>
    cases l with
    | nil =>
      simp only [ciStarts, List.length_cons, List.length_nil]
      constructor
      · intro h; exact absurd h (by simp)
      · rintro ⟨hlen, _⟩; omega
    | cons c cs =>
      simp only [ciStarts, Bool.and_eq_true, beq_iff_eq, ih, List.length_cons]
      constructor
      · rintro ⟨hb, hlen, hall⟩
        refine ⟨Nat.succ_le_succ hlen, ?_⟩
        intro k hk
        cases k with
        | zero => simpa using hb
        | succ k' => simpa using hall k' (Nat.lt_of_succ_lt_succ hk)
      · rintro ⟨hlen, hall⟩
        refine ⟨?_, Nat.le_of_succ_le_succ hlen, ?_⟩
        · simpa using hall 0 (Nat.succ_pos _)
        · intro k hk
          simpa using hall (k+1) (Nat.succ_lt_succ hk)

theorem goodWord_nonempty {bw : List Char} (h : goodWord bw = true) : bw.length ≠ 0 := by
  simp only [goodWord, Bool.and_eq_true, Bool.not_eq_true', List.isEmpty_eq_false] at h
  simpa [List.length_eq_zero] using h.1.1

theorem goodWord_lcAlpha {bw : List Char} (h : goodWord bw = true) {k : Nat} {cb : Char}
    (hk : bw[k]? = some cb) : lcAlpha cb = true := by
  simp only [goodWord, Bool.and_eq_true, List.all_eq_true] at h
  exact h.1.2 cb (List.mem_iff_getElem?.mpr ⟨k, hk⟩)

theorem goodWord_vowel {bw : List Char} (h : goodWord bw = true) :
    ∃ (p : Nat) (cb : Char), bw[p]? = some cb ∧ isVowel cb = true := by
  simp only [goodWord, Bool.and_eq_true, List.any_eq_true] at h
  obtain ⟨cb, hmem, hv⟩ := h.2
  obtain ⟨p, hp⟩ := List.mem_iff_getElem?.mp hmem
  exact ⟨p, cb, (hp : bw[p]? = some cb), hv⟩

theorem ciStarts_wordChar {bw l : List Char} (hg : goodWord bw = true)
    (h : ciStarts bw l = true) {k : Nat} (hk : k < bw.length) :
    ∃ ch, l[k]? = some ch ∧ isWordChar ch = true := by
  obtain ⟨hlen, hall⟩ := ciStarts_iff_getElem.mp h
  have hbk := hall k hk
  cases hlk : l[k]? with
  | none => rw [hlk] at hbk; simp at hbk; omega
  | some ch =>
    rw [hlk] at hbk
    simp only [Option.map_some'] at hbk
    cases hbw : bw[k]? with
    | none => rw [hbw] at hbk; simp at hbk
    | some cb =>
      rw [hbw] at hbk
      have heq : ch.toLower = cb := Option.some.inj hbk
      exact ⟨ch, rfl, wordChar_of_toLower (goodWord_lcAlpha hg hbw) heq⟩

theorem anyCongr {l : List Nat} {p q : Nat → Bool} (h : ∀ a ∈ l, p a = q a) :
    l.any p = l.any q := by
  induction l with
  | nil => rfl
  | cons a t ih => simp [List.any_cons, h a (by simp), ih fun x hx => h x (by simp [hx])]

theorem leftOk_cons_succ (prev : Option Char) (c : Char) (cs : List Char) (j : Nat) :
    leftOk prev (c :: cs) (j + 1) = leftOk (some c) cs j := by
  cases j with
  | zero => simp [leftOk, bdryP]
  | succ j' => simp [leftOk, List.getElem?_cons_succ]

theorem occAt_cons_succ (bw : List Char) (prev : Option Char) (c : Char) (cs : List Char)
    (j : Nat) : occAt bw prev (c :: cs) (j + 1) = occAt bw (some c) cs j := by
  unfold occAt
  rw [leftOk_cons_succ, List.drop_succ_cons]
  have h : j + 1 + bw.length = (j + bw.length) + 1 := by omega
  rw [h, List.drop_succ_cons]

theorem occAt_zero (b : Char) (bs : List Char) (prev : Option Char) (c : Char) (cs : List Char) :
    occAt (b :: bs) prev (c :: cs) 0 =
      (bdryP prev && (c.toLower == b) && ciStarts bs cs &&
        headNonWord (List.drop bs.length cs)) := by
  unfold occAt
  have h1 : leftOk prev (c :: cs) 0 = bdryP prev := rfl
  have h2 : ciStarts (b :: bs) ((c :: cs).drop 0) = ((c.toLower == b) && ciStarts bs cs) := rfl
  have h3 : (c :: cs).drop (0 + (b :: bs).length) = List.drop bs.length cs := by
    have : 0 + (b :: bs).length = bs.length + 1 := by simp [List.length_cons]
    rw [this, List.drop_succ_cons]
  rw [h1, h2, h3]
  cases bdryP prev <;> cases c.toLower == b <;> cases ciStarts bs cs <;>
    cases headNonWord (List.drop bs.length cs) <;> rfl

theorem coveredW_zero (bw : List Char) (prev : Option Char) (s : List Char) :
    coveredW bw prev s 0 = (occAt bw prev s 0 && decide (0 < bw.length)) := by
  have h : List.range 1 = [0] := by decide
  simp [coveredW, h]

theorem coveredW_cons_succ {bw : List Char} {prev : Option Char} {c : Char} {cs : List Char}
    (h0 : occAt bw prev (c :: cs) 0 = false) (i : Nat) :
    coveredW bw prev (c :: cs) (i + 1) = coveredW bw (some c) cs i := by
  unfold coveredW
  rw [List.range_succ_eq_map, List.any_cons, h0, List.any_map]
  simp only [Bool.false_and, Bool.false_or]
  apply anyCongr
  intro j hj
  simp only [Function.comp_apply, Nat.succ_eq_add_one]
  rw [occAt_cons_succ]
  congr 1
  exact decide_eq_decide.mpr (by omega)

theorem occAt_mid_false {b : Char} {bs : List Char} (prev : Option Char) {c : Char}
    {cs : List Char} (hg : goodWord (b :: bs) = true)
    (hci : ciStarts (b :: bs) (c :: cs) = true) {j : Nat} (hj1 : 1 ≤ j)
    (hj2 : j < (b :: bs).length) : occAt (b :: bs) prev (c :: cs) j = false := by
  cases j with
  | zero => omega
  | succ j' =>
    obtain ⟨ch, hch, hw⟩ := ciStarts_wordChar hg hci (k := j') (by omega)
    unfold occAt
    have hleft : leftOk prev (c :: cs) (j' + 1) = false := by
      simp only [leftOk, hch, hw]
      rfl
    rw [hleft]
    rfl

theorem lastOfMatch_getElem {c : Char} {cs : List Char} {k : Nat} (hlen : k ≤ cs.length) :
    (c :: cs)[k]? = some (lastOfMatch c cs k) := by
  unfold lastOfMatch
  cases hk : k with
  | zero => simp
  | succ k' =>
    rw [if_neg (Nat.succ_ne_zero k')]
    rw [List.getElem?_cons_succ]
    have hlt : k' < cs.length := by omega
    rw [List.getElem?_eq_getElem hlt]
    show some cs[k'] = some (cs.getD k' c)
    rw [List.getD_eq_getElem cs c hlt]

theorem occAt_add {bw : List Char} {prev : Option Char} {s : List Char} {L : Nat} {ch : Char}
    (hch : s[L - 1]? = some ch) (hL : 1 ≤ L) (j : Nat) :
    occAt bw prev s (L + j) = occAt bw (some ch) (s.drop L) j := by
  unfold occAt
  have h1 : leftOk prev s (L + j) = leftOk (some ch) (s.drop L) j := by
    cases j with
    | zero =>
      have he : L + 0 = (L - 1) + 1 := by omega
      rw [he]
      simp only [leftOk, hch]
      rfl
    | succ j' =>
      have he : L + (j' + 1) = (L + j') + 1 := by omega
      rw [he]
      simp only [leftOk, List.getElem?_drop]
  have h2 : s.drop (L + j) = (s.drop L).drop j := by
    rw [List.drop_drop]
  have h3 : s.drop (L + j + bw.length) = (s.drop L).drop (j + bw.length) := by
    rw [List.drop_drop]
    congr 1
    omega
  rw [h1, h2, h3]

theorem coveredW_add {bw : List Char} {prev : Option Char} {s : List Char} {L : Nat} {ch : Char}
    (hzero : occAt bw prev s 0 = true)
    (hmid : ∀ j, 1 ≤ j → j < L → occAt bw prev s j = false)
    (hLbw : L = bw.length) (hch : s[L - 1]? = some ch) (hL : 1 ≤ L) (m : Nat) :
    coveredW bw prev s (L + m) = coveredW bw (some ch) (s.drop L) m := by
  unfold coveredW
  have hsplit : L + m + 1 = L + (m + 1) := by omega
  rw [hsplit, List.range_add, List.any_append, List.any_map]
  have hleft : (List.range L).any (fun j => occAt bw prev s j && decide (L + m < j + bw.length)) =
      false := by
    rw [List.any_eq_false]
    intro j hj
    rw [List.mem_range] at hj
    rcases Nat.eq_zero_or_pos j with h0 | h1
    · subst h0
      simp only [hzero, Bool.true_and]
      simp only [decide_eq_true_eq]
      omega
    · simp [hmid j h1 hj]
  rw [hleft, Bool.false_or]
  apply anyCongr
  intro j hj
  simp only [Function.comp_apply]
  rw [occAt_add hch hL]
  congr 1
  exact decide_eq_decide.mpr (by omega)

theorem coveredW_region {bw : List Char} {prev : Option Char} {s : List Char}
    (hzero : occAt bw prev s 0 = true) {i : Nat} (hi : i < bw.length) :
    coveredW bw prev s i = true := by
  unfold coveredW
  rw [List.any_eq_true]
  refine ⟨0, by simp [List.mem_range], ?_⟩
  simp only [hzero, Bool.true_and, Nat.zero_add, decide_eq_true_eq]
  omega

theorem scanAux_length {b : Char} {bs : List Char} :
    ∀ (fuel : Nat) (s : List Char), s.length ≤ fuel → ∀ prev,
      (scanAux b bs fuel prev s).length = s.length := by
  intro fuel
  induction fuel with
  | zero =>
    intro s hs prev
    have hnil : s = [] := List.length_eq_zero.mp (Nat.le_zero.mp hs)
    subst hnil
    rfl
  | succ fuel ih =>
    intro s hs prev
    cases s with
    | nil => rfl
    | cons c cs =>
      simp only [scanAux]
      split
      · next hm =>
          simp only [Bool.and_eq_true] at hm
          have hlen : bs.length ≤ cs.length := ciStarts_length hm.1.2
          have hr := ih (List.drop bs.length cs)
            (by simp only [List.length_drop]; simp only [List.length_cons] at hs; omega)
            (some (lastOfMatch c cs bs.length))
          simp only [List.length_cons, List.length_append, List.length_map, maskWord,
            List.length_take, hr, List.length_drop]
          omega
      · next _ =>
          have hr := ih cs (by simp only [List.length_cons] at hs; omega) (some c)
          simp [hr]

theorem scanAux_getElem {b : Char} {bs : List Char} (hg : goodWord (b :: bs) = true) :
    ∀ (fuel : Nat) (s : List Char), s.length ≤ fuel → ∀ (prev : Option Char) (i : Nat),
      (scanAux b bs fuel prev s)[i]? =
        (s[i]?).map fun x => if coveredW (b :: bs) prev s i && isVowel x then '*' else x := by
  intro fuel
  induction fuel with
  | zero =>
    intro s hs prev i
    have hnil : s = [] := List.length_eq_zero.mp (Nat.le_zero.mp hs)
    subst hnil
    rfl
  | succ fuel ih =>
    intro s hs prev i
    cases s with
    | nil => rfl
    | cons c cs =>
      have hslen : cs.length ≤ fuel := by simp only [List.length_cons] at hs; omega
      simp only [scanAux]
      split
      · next hm =>
          have hocc : occAt (b :: bs) prev (c :: cs) 0 = true := by
            rw [occAt_zero]; exact hm
          simp only [Bool.and_eq_true] at hm
          have hci : ciStarts bs cs = true := hm.1.2
          have hlen : bs.length ≤ cs.length := ciStarts_length hci
          have hciFull : ciStarts (b :: bs) (c :: cs) = true := by
            simp only [ciStarts, Bool.and_eq_true]
            exact ⟨hm.1.1.2, hci⟩
          have htake : (maskWord (List.take bs.length cs)).length = bs.length := by
            simp [maskWord, List.length_take, Nat.min_eq_left hlen]
          rcases Nat.lt_or_ge i (bs.length + 1) with hi | hi
          · -- inside the matched region
            have hcov : coveredW (b :: bs) prev (c :: cs) i = true :=
              coveredW_region hocc (by simpa [List.length_cons] using hi)
            cases i with
            | zero =>
              simp only [List.getElem?_cons_zero, hcov, Bool.true_and, Option.map_some']
              rfl
            | succ k =>
              have hk : k < bs.length := by omega
              rw [List.getElem?_cons_succ, List.getElem?_cons_succ,
                List.getElem?_append_left (by omega : k < (maskWord (List.take bs.length cs)).length)]
              simp only [maskWord, List.getElem?_map]
              rw [List.getElem?_take, if_pos hk, hcov]
              cases hx : cs[k]? <;> simp [maskChar]
          · -- after the matched region
            obtain ⟨k, rfl⟩ : ∃ k, i = k + 1 := ⟨i - 1, by omega⟩
            have hkge : bs.length ≤ k := by omega
            rw [List.getElem?_cons_succ, List.getElem?_cons_succ,
              List.getElem?_append_right (by omega :
                (maskWord (List.take bs.length cs)).length ≤ k)]
            rw [htake]
            have hrestlen : (List.drop bs.length cs).length ≤ fuel := by
              simp only [List.length_drop]
              omega
            rw [ih (List.drop bs.length cs) hrestlen (some (lastOfMatch c cs bs.length))
              (k - bs.length)]
            have hch : (c :: cs)[(bs.length + 1) - 1]? = some (lastOfMatch c cs bs.length) := by
              simpa using lastOfMatch_getElem (c := c) hlen
            have hmid : ∀ j, 1 ≤ j → j < bs.length + 1 →
                occAt (b :: bs) prev (c :: cs) j = false := by
              intro j h1 h2
              exact occAt_mid_false prev hg hciFull h1 (by simpa [List.length_cons] using h2)
            have hcadd := coveredW_add hocc hmid (by simp [List.length_cons]) hch
              (by omega) (k - bs.length)
            have hdrop : (c :: cs).drop (bs.length + 1) = List.drop bs.length cs :=
              List.drop_succ_cons
            rw [hdrop] at hcadd
            have hi' : bs.length + 1 + (k - bs.length) = k + 1 := by omega
            rw [hi'] at hcadd
            have hidx : (List.drop bs.length cs)[k - bs.length]? = cs[k]? := by
              rw [List.getElem?_drop]
              congr 1
              omega
            rw [hidx, hcadd]
      · next hm =>
          have h0 : occAt (b :: bs) prev (c :: cs) 0 = false := by
            rw [occAt_zero]
            exact Bool.not_eq_true _ ▸ (by simpa using hm)
          cases i with
          | zero =>
            rw [List.getElem?_cons_zero, List.getElem?_cons_zero]
            rw [coveredW_zero, h0]
            rfl
          | succ k =>
            rw [List.getElem?_cons_succ, List.getElem?_cons_succ, ih cs hslen (some c) k,
              coveredW_cons_succ h0]

theorem replaceBW_length (bw s : List Char) : (replaceBW bw s).length = s.length := by
  cases bw with
  | nil => rfl
  | cons b bs => exact scanAux_length s.length s le_rfl none

theorem replaceBW_getElem {bw : List Char} (hg : goodWord bw = true) (s : List Char) (i : Nat) :
    (replaceBW bw s)[i]? =
      (s[i]?).map fun x => if coveredW bw none s i && isVowel x then '*' else x := by
  cases bw with
  | nil => simp [goodWord] at hg
  | cons b bs => exact scanAux_getElem hg s.length s le_rfl none i

theorem getD_of_getElem {s : List Char} {i : Nat} {x : Char} (d : Char) (h : s[i]? = some x) :
    s.getD i d = x := by
  rw [List.getD_eq_getElem?_getD, h]
  rfl

theorem headNonWord_iff {l : List Char} :
    headNonWord l = true ↔ (l[0]? = none ∨ ∃ ch, l[0]? = some ch ∧ isWordChar ch = false) := by
  cases l with
  | nil => simp [headNonWord]
  | cons c cs =>
    simp only [headNonWord, List.getElem?_cons_zero, Bool.not_eq_true']
    constructor
    · intro h; exact Or.inr ⟨c, rfl, h⟩
    · rintro (h | ⟨ch, hch, hw⟩)
      · exact absurd h (by simp)
      · cases Option.some.inj hch; exact hw

theorem occ_chars {bw s : List Char} {j k : Nat} (hg : goodWord bw = true)
    (hocc : occAt bw none s j = true) (hk : k < bw.length) :
    ∃ ch, s[j + k]? = some ch ∧ isWordChar ch = true := by
  simp only [occAt, Bool.and_eq_true] at hocc
  obtain ⟨ch, hch, hw⟩ := ciStarts_wordChar hg hocc.1.2 hk
  rw [List.getElem?_drop] at hch
  exact ⟨ch, hch, hw⟩

theorem occ_ci {bw s : List Char} {j k : Nat} {cb : Char}
    (hocc : occAt bw none s j = true) (hk : bw[k]? = some cb) :
    ∃ ch, s[j + k]? = some ch ∧ ch.toLower = cb := by
  simp only [occAt, Bool.and_eq_true] at hocc
  obtain ⟨hlen, hall⟩ := ciStarts_iff_getElem.mp hocc.1.2
  have hklt : k < bw.length := by
    by_contra hge
    rw [List.getElem?_eq_none (by omega)] at hk
    exact Option.noConfusion hk
  have := hall k hklt
  rw [hk] at this
  cases hsk : (s.drop j)[k]? with
  | none => rw [hsk] at this; exact Option.noConfusion this
  | some ch =>
    rw [hsk] at this
    rw [List.getElem?_drop] at hsk
    exact ⟨ch, hsk, Option.some.inj this⟩

theorem occ_left {bw s : List Char} {j : Nat} (hocc : occAt bw none s (j + 1) = true) :
    ∃ ch, s[j]? = some ch ∧ isWordChar ch = false := by
  simp only [occAt, Bool.and_eq_true] at hocc
  have h := hocc.1.1
  simp only [leftOk] at h
  cases hsj : s[j]? with
  | none => rw [hsj] at h; exact Bool.noConfusion h
  | some ch =>
    rw [hsj] at h
    exact ⟨ch, rfl, by simpa using h⟩

theorem occ_right {bw s : List Char} {j : Nat} (hocc : occAt bw none s j = true) :
    s[j + bw.length]? = none ∨ ∃ ch, s[j + bw.length]? = some ch ∧ isWordChar ch = false := by
  simp only [occAt, Bool.and_eq_true] at hocc
  have h := headNonWord_iff.mp hocc.2
  rcases h with h | ⟨ch, hch, hw⟩
  · left; rw [List.getElem?_drop] at h; simpa using h
  · right; rw [List.getElem?_drop] at hch; exact ⟨ch, by simpa using hch, hw⟩

theorem occ_le_length {bw s : List Char} {j : Nat} (hg : goodWord bw = true)
    (hocc : occAt bw none s j = true) : j + bw.length ≤ s.length := by
  simp only [occAt, Bool.and_eq_true] at hocc
  have hlen := ciStarts_length hocc.1.2
  rw [List.length_drop] at hlen
  have hne := goodWord_nonempty hg
  omega

theorem occAt_intro {bw s : List Char} {j : Nat}
    (hleft : j = 0 ∨ ∃ ch, s[j - 1]? = some ch ∧ isWordChar ch = false)
    (hci : ciStarts bw (s.drop j) = true)
    (hright : s[j + bw.length]? = none ∨
      ∃ ch, s[j + bw.length]? = some ch ∧ isWordChar ch = false) :
    occAt bw none s j = true := by
  simp only [occAt, Bool.and_eq_true]
  refine ⟨⟨?_, hci⟩, ?_⟩
  · rcases hleft with h0 | ⟨ch, hch, hw⟩
    · subst h0; rfl
    · cases j with
      | zero => rfl
      | succ j' =>
        simp only [leftOk]
        simp only [Nat.add_sub_cancel] at hch
        rw [hch]
        simp [hw]
  · rw [headNonWord_iff]
    rcases hright with h | ⟨ch, hch, hw⟩
    · left; rw [List.getElem?_drop]; simpa using h
    · right; exact ⟨ch, by rw [List.getElem?_drop]; simpa using hch, hw⟩

theorem coveredW_iff {bw : List Char} {prev : Option Char} {s : List Char} {i : Nat} :
    coveredW bw prev s i = true ↔
      ∃ j, j ≤ i ∧ occAt bw prev s j = true ∧ i < j + bw.length := by
  unfold coveredW
  rw [List.any_eq_true]
  constructor
  · rintro ⟨j, hj, hp⟩
    rw [List.mem_range] at hj
    simp only [Bool.and_eq_true, decide_eq_true_eq] at hp
    exact ⟨j, by omega, hp.1, hp.2⟩
  · rintro ⟨j, hj, hocc, hlt⟩
    refine ⟨j, by rw [List.mem_range]; omega, ?_⟩
    simp only [Bool.and_eq_true, decide_eq_true_eq]
    exact ⟨hocc, hlt⟩

theorem maskedPos_iff {W : List (List Char)} {s : List Char} {i : Nat} :
    maskedPos W s i = true ↔
      (∃ w ∈ W, ∃ j, j ≤ i ∧ occAt w none s j = true ∧ i < j + w.length) ∧
        isVowel (s.getD i '*') = true := by
  unfold maskedPos
  rw [Bool.and_eq_true, List.any_eq_true]
  constructor
  · rintro ⟨⟨w, hw, hc⟩, hv⟩
    exact ⟨⟨w, hw, coveredW_iff.mp hc⟩, hv⟩
  · rintro ⟨⟨w, hw, hc⟩, hv⟩
    exact ⟨⟨w, hw, coveredW_iff.mpr hc⟩, hv⟩

theorem occ_same_pos {w1 w2 s : List Char} {j : Nat} (hg1 : goodWord w1 = true)
    (hg2 : goodWord w2 = true) (h1 : occAt w1 none s j = true)
    (h2 : occAt w2 none s j = true) : w1 = w2 := by
  have hlen : w1.length = w2.length := by
    rcases Nat.lt_trichotomy w1.length w2.length with hlt | heq | hgt
    · exfalso
      obtain ⟨ch, hch, hw⟩ := occ_chars hg2 h2 hlt
      rcases occ_right h1 with hr | ⟨ch', hch', hw'⟩
      · rw [hch] at hr; exact Option.noConfusion hr
      · rw [hch] at hch'; cases Option.some.inj hch'; rw [hw] at hw'; exact Bool.noConfusion hw'
    · exact heq
    · exfalso
      obtain ⟨ch, hch, hw⟩ := occ_chars hg1 h1 hgt
      rcases occ_right h2 with hr | ⟨ch', hch', hw'⟩
      · rw [hch] at hr; exact Option.noConfusion hr
      · rw [hch] at hch'; cases Option.some.inj hch'; rw [hw] at hw'; exact Bool.noConfusion hw'
  simp only [occAt, Bool.and_eq_true] at h1 h2
  obtain ⟨_, hall1⟩ := ciStarts_iff_getElem.mp h1.1.2
  obtain ⟨_, hall2⟩ := ciStarts_iff_getElem.mp h2.1.2
  apply List.ext_getElem?
  intro i
  rcases Nat.lt_or_ge i w1.length with hi | hi
  · rw [← hall1 i hi, ← hall2 i (by omega)]
  · rw [List.getElem?_eq_none hi, List.getElem?_eq_none (by omega)]

theorem occ_disjoint_aux {w1 w2 s : List Char} {j1 j2 : Nat} (hg1 : goodWord w1 = true)
    (hg2 : goodWord w2 = true) (h1 : occAt w1 none s j1 = true)
    (h2 : occAt w2 none s j2 = true) (hne : ¬(w1 = w2 ∧ j1 = j2)) (hle : j1 ≤ j2) :
    j1 + w1.length ≤ j2 := by
  rcases Nat.eq_or_lt_of_le hle with heq | hlt
  · subst heq
    exact absurd ⟨occ_same_pos hg1 hg2 h1 h2, rfl⟩ hne
  · by_contra hover
    have hover' : j2 < j1 + w1.length := by omega
    obtain ⟨j2', rfl⟩ : ∃ j2', j2 = j2' + 1 := ⟨j2 - 1, by omega⟩
    obtain ⟨ch, hch, hw⟩ := occ_left h2
    obtain ⟨ch', hch', hw'⟩ := occ_chars hg1 h1 (k := j2' - j1) (by omega)
    have : j1 + (j2' - j1) = j2' := by omega
    rw [this] at hch'
    rw [hch] at hch'
    cases Option.some.inj hch'
    rw [hw] at hw'
    exact Bool.noConfusion hw'

theorem occ_disjoint {w1 w2 s : List Char} {j1 j2 : Nat} (hg1 : goodWord w1 = true)
    (hg2 : goodWord w2 = true) (h1 : occAt w1 none s j1 = true)
    (h2 : occAt w2 none s j2 = true) (hne : ¬(w1 = w2 ∧ j1 = j2)) :
    j1 + w1.length ≤ j2 ∨ j2 + w2.length ≤ j1 := by
  rcases Nat.le_total j1 j2 with hle | hle
  · exact Or.inl (occ_disjoint_aux hg1 hg2 h1 h2 hne hle)
  · exact Or.inr (occ_disjoint_aux hg2 hg1 h2 h1 (by

      intro hc
      exact hne ⟨hc.1.symm, hc.2.symm⟩) hle)

theorem region_unmasked {W : List (List Char)} {s bw : List Char} {j : Nat}
    (hWg : ∀ w ∈ W, goodWord w = true) (hg : goodWord bw = true) (hnot : bw ∉ W)
    (hocc : occAt bw none s j = true) {k : Nat} (hk : k < bw.length) :
    maskedPos W s (j + k) = false := by
  by_contra hmask
  rw [Bool.not_eq_false, maskedPos_iff] at hmask
  obtain ⟨⟨w', hw', j', hj'le, hocc', hj'lt⟩, _⟩ := hmask
  have hne : ¬(bw = w' ∧ j = j') := by
    rintro ⟨rfl, _⟩
    exact hnot hw'
  rcases occ_disjoint hg (hWg w' hw') hocc hocc' hne with hd | hd <;> omega

theorem ht_length {W : List (List Char)} {s t : List Char}
    (ht : ∀ i : Nat, t[i]? = (s[i]?).map fun x => if maskedPos W s i then '*' else x) :
    t.length = s.length := by
  rcases Nat.lt_trichotomy t.length s.length with h | h | h
  · exfalso
    have hth := ht t.length
    rw [List.getElem?_eq_getElem h, List.getElem?_eq_none (le_refl t.length)] at hth
    exact Option.noConfusion hth
  · exact h
  · exfalso
    have hth := ht s.length
    rw [List.getElem?_eq_none (le_refl s.length), List.getElem?_eq_getElem h] at hth
    exact Option.noConfusion hth

theorem occ_transfer_fwd {W : List (List Char)} {s t bw : List Char} {j : Nat}
    (ht : ∀ i : Nat, t[i]? = (s[i]?).map fun x => if maskedPos W s i then '*' else x)
    (hWg : ∀ w ∈ W, goodWord w = true) (hg : goodWord bw = true) (hnot : bw ∉ W)
    (hocc : occAt bw none s j = true) : occAt bw none t j = true := by
  have hlt := ht_length ht
  have hcis : ciStarts bw (s.drop j) = true := by
    simp only [occAt, Bool.and_eq_true] at hocc
    exact hocc.1.2
  obtain ⟨hlens, halls⟩ := ciStarts_iff_getElem.mp hcis
  apply occAt_intro
  · cases j with
    | zero => exact Or.inl rfl
    | succ j' =>
      right
      obtain ⟨ch, hch, hw⟩ := occ_left hocc
      simp only [Nat.add_sub_cancel]
      by_cases hm : maskedPos W s j' = true
      · refine ⟨'*', ?_, by decide⟩
        rw [ht j', hch, Option.map_some', hm]
        rfl
      · refine ⟨ch, ?_, hw⟩
        rw [ht j', hch, Option.map_some']
        simp [hm]
  · rw [ciStarts_iff_getElem]
    constructor
    · rw [List.length_drop, hlt]
      rw [List.length_drop] at hlens
      exact hlens
    · intro k hk
      rw [List.getElem?_drop]
      have hsk := halls k hk
      rw [List.getElem?_drop] at hsk
      cases hsome : s[j + k]? with
      | none =>
        exfalso
        rw [List.length_drop] at hlens
        have hjk : j + k < s.length := by omega
        rw [List.getElem?_eq_getElem hjk] at hsome
        exact Option.noConfusion hsome
      | some ch =>
        have hmf : maskedPos W s (j + k) = false := region_unmasked hWg hg hnot hocc hk
        rw [ht (j + k), hsome, Option.map_some', hmf]
        rw [hsome] at hsk
        simpa using hsk
  · rcases occ_right hocc with hnone | ⟨ch, hch, hw⟩
    · left
      rw [ht (j + bw.length), hnone]
      rfl
    · right
      by_cases hm : maskedPos W s (j + bw.length) = true
      · refine ⟨'*', ?_, by decide⟩
        rw [ht (j + bw.length), hch, Option.map_some', hm]
        rfl
      · refine ⟨ch, ?_, hw⟩
        rw [ht (j + bw.length), hch, Option.map_some']
        simp [hm]

theorem occ_transfer_bwd {W : List (List Char)} {s t bw : List Char} {j : Nat}
    (ht : ∀ i : Nat, t[i]? = (s[i]?).map fun x => if maskedPos W s i then '*' else x)
    (hg : goodWord bw = true) (hocc : occAt bw none t j = true) :
    occAt bw none s j = true := by
  have hlt := ht_length ht
  have hcit : ciStarts bw (t.drop j) = true := by
    simp only [occAt, Bool.and_eq_true] at hocc
    exact hocc.1.2
  obtain ⟨hlent, hallt⟩ := ciStarts_iff_getElem.mp hcit
  have hregion : ∀ k, k < bw.length → ∃ ch cb, bw[k]? = some cb ∧ s[j + k]? = some ch ∧
      ch.toLower = cb ∧ isWordChar ch = true ∧ maskedPos W s (j + k) = false := by
    intro k hk
    have hcb : bw[k]? = some bw[k] := List.getElem?_eq_getElem hk
    have htk := hallt k hk
    rw [List.getElem?_drop] at htk
    cases htj : t[j + k]? with
    | none => rw [htj, hcb] at htk; exact absurd htk (by simp)
    | some ch =>
      rw [htj, hcb] at htk
      have hlow : ch.toLower = bw[k] := by simpa using htk
      have hlc : lcAlpha bw[k] = true := goodWord_lcAlpha hg hcb
      have hstar : ch ≠ '*' := by
        intro heq
        subst heq
        exact star_not_toLower hlc hlow
      have hts := ht (j + k)
      cases hsj : s[j + k]? with
      | none => rw [hsj, htj] at hts; exact Option.noConfusion hts
      | some x =>
        rw [hsj, Option.map_some', htj] at hts
        have hche : ch = if maskedPos W s (j + k) = true then '*' else x :=
          Option.some.inj hts
        by_cases hm : maskedPos W s (j + k) = true
        · rw [hm] at hche
          simp at hche
          exact absurd hche hstar
        · simp only [Bool.not_eq_true] at hm
          rw [hm] at hche
          simp at hche
          subst hche
          exact ⟨ch, bw[k], hcb, rfl, hlow, wordChar_of_toLower hlc hlow, hm⟩
  have hcis : ciStarts bw (s.drop j) = true := by
    rw [ciStarts_iff_getElem]
    constructor
    · rw [List.length_drop]
      rw [List.length_drop, hlt] at hlent
      exact hlent
    · intro k hk
      obtain ⟨ch, cb, hcb, hs, hlow, _, _⟩ := hregion k hk
      rw [List.getElem?_drop, hs, Option.map_some', hlow, hcb]
  obtain ⟨p, cbv, hpcb, hvcb⟩ := goodWord_vowel hg
  have hp : p < bw.length := by
    by_contra hge
    rw [List.getElem?_eq_none (by omega)] at hpcb
    exact Option.noConfusion hpcb
  obtain ⟨vch, cbv', hcbv', hsv, hlowv, _, hmaskv⟩ := hregion p hp
  have hcbe : cbv' = cbv := by
    rw [hpcb] at hcbv'
    exact (Option.some.inj hcbv').symm
  have hvch : isVowel vch = true := vowel_of_toLower (hcbe ▸ hvcb) hlowv
  have habsorb : ∀ w' ∈ W, ∀ j₀, occAt w' none s j₀ = true → j₀ ≤ j →
      j + bw.length ≤ j₀ + w'.length → False := by
    intro w' hw' j₀ hocc' hj₀ hsub
    have hmp : maskedPos W s (j + p) = true := by
      rw [maskedPos_iff]
      refine ⟨⟨w', hw', j₀, by omega, hocc', by omega⟩, ?_⟩
      rw [getD_of_getElem '*' hsv]
      exact hvch
    rw [hmp] at hmaskv
    exact Bool.noConfusion hmaskv
  apply occAt_intro
  · cases j with
    | zero => exact Or.inl rfl
    | succ j' =>
      right
      simp only [Nat.add_sub_cancel]
      obtain ⟨ch', hch', hw'⟩ := occ_left hocc
      have hts := ht j'
      cases hsj : s[j']? with
      | none => rw [hsj, hch'] at hts; exact Option.noConfusion hts
      | some x =>
        by_cases hm : maskedPos W s j' = true
        · exfalso
          rw [maskedPos_iff] at hm
          obtain ⟨⟨w', hw'', j₀, hj₀le, hocc', hj₀lt⟩, hvx⟩ := hm
          rcases Nat.lt_or_ge (j' + 1) (j₀ + w'.length) with hin | hend
          · have hcont : j' + 1 + bw.length ≤ j₀ + w'.length := by
              by_contra hno
              obtain ⟨ch2, cb2, _, hs2, _, hword2, _⟩ :=
                hregion (j₀ + w'.length - (j' + 1)) (by omega)
              have heq2 : j' + 1 + (j₀ + w'.length - (j' + 1)) = j₀ + w'.length := by omega
              rw [heq2] at hs2
              rcases occ_right hocc' with hr | ⟨ch3, hch3, hw3⟩
              · rw [hs2] at hr
                exact Option.noConfusion hr
              · rw [hs2] at hch3
                cases Option.some.inj hch3
                rw [hword2] at hw3
                exact Bool.noConfusion hw3
            exact habsorb w' hw'' j₀ hocc' (by omega) (by omega)
          · have hedge : j' + 1 = j₀ + w'.length := by omega
            obtain ⟨ch0, cb0, _, hs0, _, hword0, _⟩ := hregion 0 (by
              have := goodWord_nonempty hg
              omega)
            rw [Nat.add_zero] at hs0
            rcases occ_right hocc' with hr | ⟨ch3, hch3, hw3⟩
            · rw [← hedge, hs0] at hr
              exact Option.noConfusion hr
            · rw [← hedge, hs0] at hch3
              cases Option.some.inj hch3
              rw [hword0] at hw3
              exact Bool.noConfusion hw3
        · simp only [Bool.not_eq_true] at hm
          rw [hsj, Option.map_some', hm, hch'] at hts
          have hxe : ch' = x := by simpa using Option.some.inj hts
          exact ⟨x, rfl, hxe ▸ hw'⟩
  · exact hcis
  · rcases occ_right hocc with hnone | ⟨ch', hch', hw'⟩
    · left
      cases hsj : s[j + bw.length]? with
      | none => rfl
      | some x =>
        exfalso
        have hts := ht (j + bw.length)
        rw [hsj, Option.map_some', hnone] at hts
        exact Option.noConfusion hts
    · right
      have hts := ht (j + bw.length)
      cases hsj : s[j + bw.length]? with
      | none => rw [hsj, hch'] at hts; exact Option.noConfusion hts
      | some x =>
        by_cases hm : maskedPos W s (j + bw.length) = true
        · exfalso
          rw [maskedPos_iff] at hm
          obtain ⟨⟨w', hw'', j₀, hj₀le, hocc', hj₀lt⟩, hvx⟩ := hm
          rcases Nat.lt_or_ge j j₀ with hjlt | hjge
          · obtain ⟨j₀', rfl⟩ : ∃ j₀', j₀ = j₀' + 1 := ⟨j₀ - 1, by omega⟩
            obtain ⟨chL, hchL, hwL⟩ := occ_left hocc'
            obtain ⟨ch2, cb2, _, hs2, _, hword2, _⟩ := hregion (j₀' - j) (by omega)
            have heq2 : j + (j₀' - j) = j₀' := by omega
            rw [heq2] at hs2
            rw [hs2] at hchL
            cases Option.some.inj hchL
            rw [hword2] at hwL
            exact Bool.noConfusion hwL
          · exact habsorb w' hw'' j₀ hocc' hjge (by omega)
        · simp only [Bool.not_eq_true] at hm
          rw [hsj, Option.map_some', hm, hch'] at hts
          have hxe : ch' = x := by simpa using Option.some.inj hts
          exact ⟨x, rfl, hxe ▸ hw'⟩

theorem stateW_getElem (W : List (List Char)) (s : List Char) (i : Nat) :
    (stateW W s)[i]? = (s[i]?).map fun x => if maskedPos W s i then '*' else x := by
  rcases Nat.lt_or_ge i s.length with h | h
  · unfold stateW
    rw [List.getElem?_map, List.getElem?_range h, Option.map_some',
      List.getElem?_eq_getElem h, Option.map_some', List.getD_eq_getElem s '*' h]
  · have h1 : (stateW W s)[i]? = none := by
      apply List.getElem?_eq_none
      simp [stateW]
      exact h
    rw [h1, List.getElem?_eq_none h]
    rfl

theorem covered_transfer {W : List (List Char)} {s w : List Char}
    (hWg : ∀ u ∈ W, goodWord u = true) (hg : goodWord w = true) (hnot : w ∉ W) (i : Nat) :
    coveredW w none (stateW W s) i = coveredW w none s i := by
  have ht := stateW_getElem W s
  cases hb : coveredW w none s i with
  | true =>
    obtain ⟨j, hj, hocc, hlt⟩ := coveredW_iff.mp hb
    exact coveredW_iff.mpr ⟨j, hj, occ_transfer_fwd ht hWg hg hnot hocc, hlt⟩
  | false =>
    by_contra hc
    rw [Bool.not_eq_false, coveredW_iff] at hc
    obtain ⟨j, hj, hocc, hlt⟩ := hc
    have := coveredW_iff.mpr ⟨j, hj, occ_transfer_bwd ht hg hocc, hlt⟩
    rw [hb] at this
    exact Bool.noConfusion this

theorem maskedPos_append (W : List (List Char)) (w : List Char) (s : List Char) (i : Nat) :
    maskedPos (W ++ [w]) s i =
      (maskedPos W s i || (coveredW w none s i && isVowel (s.getD i '*'))) := by
  unfold maskedPos
  rw [List.any_append]
  have hsing : ([w].any fun bw => coveredW bw none s i) = coveredW w none s i := by
    simp [List.any_cons]
  rw [hsing]
  cases W.any fun bw => coveredW bw none s i <;> cases coveredW w none s i <;>
    cases isVowel (s.getD i '*') <;> rfl

theorem step_stateW {W : List (List Char)} {w s : List Char}
    (hWg : ∀ u ∈ W, goodWord u = true) (hg : goodWord w = true) (hnot : w ∉ W) :
    replaceBW w (stateW W s) = stateW (W ++ [w]) s := by
  apply List.ext_getElem?
  intro i
  rw [replaceBW_getElem hg, stateW_getElem, stateW_getElem, maskedPos_append,
    covered_transfer hWg hg hnot]
  cases hsx : s[i]? with
  | none => rfl
  | some x =>
    simp only [Option.map_some']
    rw [getD_of_getElem '*' hsx]
    cases hmW : maskedPos W s i <;> cases hcv : coveredW w none s i <;>
      cases hv : isVowel x <;> simp_all <;> rfl

theorem stateW_nil (s : List Char) : stateW [] s = s := by
  apply List.ext_getElem?
  intro i
  rw [stateW_getElem]
  have : maskedPos [] s i = false := by simp [maskedPos]
  rw [this]
  cases s[i]? <;> rfl

theorem fold_stateW {s : List Char} :
    ∀ (W2 W1 : List (List Char)), (∀ u ∈ W1 ++ W2, goodWord u = true) → (W1 ++ W2).Nodup →
      List.foldl (fun out bw => replaceBW bw out) (stateW W1 s) W2 = stateW (W1 ++ W2) s := by
  intro W2
  induction W2 with
  | nil =>
    intro W1 _ _
    simp
  | cons w W2' ih =>
    intro W1 hgood hnodup
    simp only [List.foldl_cons]
    have hnot : w ∉ W1 := by
      rw [List.nodup_append] at hnodup
      intro hmem
      exact hnodup.2.2 hmem (by simp)
    rw [step_stateW (fun u hu => hgood u (by simp [hu])) (hgood w (by simp)) hnot]
    have hass : (W1 ++ [w]) ++ W2' = W1 ++ (w :: W2') := by simp
    have hgood' : ∀ u ∈ (W1 ++ [w]) ++ W2', goodWord u = true := by
      rw [hass]
      exact hgood
    have hnodup' : ((W1 ++ [w]) ++ W2').Nodup := by
      rw [hass]
      exact hnodup
    rw [ih (W1 ++ [w]) hgood' hnodup', hass]

theorem bad_words_good : ∀ u ∈ BAD_WORDS, goodWord u = true := by decide

theorem bad_words_nodup : BAD_WORDS.Nodup := by decide

theorem sanitizeList_eq_spec (s : List Char) : sanitizeList s = sanitizeSpec s := by
  have h := fold_stateW (s := s) BAD_WORDS [] (by simpa using bad_words_good)
    (by simpa using bad_words_nodup)
  rw [stateW_nil] at h
  simpa [sanitizeList, sanitizeSpec] using h

theorem spec_no_occ {s bw : List Char} (hbw : bw ∈ BAD_WORDS) (j : Nat) :
    occAt bw none (sanitizeSpec s) j = false := by
  by_contra hcon
  rw [Bool.not_eq_false] at hcon
  have hg : goodWord bw = true := bad_words_good bw hbw
  have ht := stateW_getElem BAD_WORDS s
  have hocc_s : occAt bw none s j = true := occ_transfer_bwd ht hg hcon
  obtain ⟨p, cb, hpcb, hv⟩ := goodWord_vowel hg
  have hp : p < bw.length := by
    by_contra hge
    rw [List.getElem?_eq_none (by omega)] at hpcb
    exact Option.noConfusion hpcb
  obtain ⟨ch, hch, hlow⟩ := occ_ci hocc_s hpcb
  have hmask : maskedPos BAD_WORDS s (j + p) = true := by
    rw [maskedPos_iff]
    refine ⟨⟨bw, hbw, j, by omega, hocc_s, by omega⟩, ?_⟩
    rw [getD_of_getElem '*' hch]
    exact vowel_of_toLower hv hlow
  obtain ⟨ch', hch', hlow'⟩ := occ_ci hcon hpcb
  have hspec : sanitizeSpec s = stateW BAD_WORDS s := rfl
  rw [hspec] at hch'
  have htp := ht (j + p)
  rw [hch, Option.map_some', hmask] at htp
  rw [hch'] at htp
  have : ch' = '*' := by simpa using Option.some.inj htp
  subst this
  exact star_not_toLower (goodWord_lcAlpha hg hpcb) hlow'

theorem replaceBW_id {bw t : List Char} (hg : goodWord bw = true)
    (hno : ∀ j, occAt bw none t j = false) : replaceBW bw t = t := by
  apply List.ext_getElem?
  intro i
  rw [replaceBW_getElem hg]
  have hcov : coveredW bw none t i = false := by
    by_contra h
    rw [Bool.not_eq_false, coveredW_iff] at h
    obtain ⟨j, _, hocc, _⟩ := h
    rw [hno j] at hocc
    exact Bool.noConfusion hocc
  rw [hcov]
  cases t[i]? <;> rfl

theorem spec_fixed (s : List Char) : sanitizeList (sanitizeSpec s) = sanitizeSpec s := by
  unfold sanitizeList
  have hgen : ∀ (L : List (List Char)), (∀ u ∈ L, u ∈ BAD_WORDS) →
      List.foldl (fun out bw => replaceBW bw out) (sanitizeSpec s) L = sanitizeSpec s := by
    intro L
    induction L with
    | nil => intro _; rfl
    | cons w L' ih =>
      intro hmem
      simp only [List.foldl_cons]
      rw [replaceBW_id (bad_words_good w (hmem w (by simp)))
        (fun j => spec_no_occ (hmem w (by simp)) j)]
      exact ih fun u hu => hmem u (by simp [hu])
  exact hgen BAD_WORDS fun u hu => hu

theorem sanitizeList_idem (s : List Char) : sanitizeList (sanitizeList s) = sanitizeList s := by
  rw [sanitizeList_eq_spec s, spec_fixed]

theorem foldl_replaceBW_length (L : List (List Char)) :
    ∀ t : List Char, (List.foldl (fun out bw => replaceBW bw out) t L).length = t.length := by
  induction L with
  | nil => intro t; rfl
  | cons w L' ih =>
    intro t
    simp only [List.foldl_cons]
    rw [ih, replaceBW_length]

theorem sanitizeList_length (s : List Char) : (sanitizeList s).length = s.length :=
  foldl_replaceBW_length BAD_WORDS s

theorem sanitizeTextS_data (x : String) : (sanitizeTextS x).data = sanitizeList x.data := by
  unfold sanitizeTextS
  by_cases h : x = ""
  · subst h; rfl
  · rw [if_neg h]

theorem sanitizeTextS_length (x : String) : (sanitizeTextS x).length = x.length := by
  have h1 : (sanitizeTextS x).length = (sanitizeTextS x).data.length := rfl
  have h2 : x.length = x.data.length := rfl
  rw [h1, h2, sanitizeTextS_data, sanitizeList_length]

theorem sanitizeTextS_of_ne {y : String} (h : y ≠ "") :
    sanitizeTextS y = String.mk (sanitizeList y.data) := by
  unfold sanitizeTextS
  rw [if_neg h]

theorem sanitizeTextS_idem (x : String) : sanitizeTextS (sanitizeTextS x) = sanitizeTextS x := by
  by_cases h : x = ""
  · subst h; rfl
  · have h1 : sanitizeTextS x ≠ "" := by
      intro he
      apply h
      have hlen : (sanitizeTextS x).length = 0 := by rw [he]; rfl
      rw [sanitizeTextS_length] at hlen
      have : x.data.length = 0 := hlen
      have hdata : x.data = [] := List.length_eq_zero.mp this
      cases x
      simp at hdata
      rw [hdata]
    rw [sanitizeTextS_of_ne h1, sanitizeTextS_data, sanitizeList_idem, ← sanitizeTextS_of_ne h]

theorem sanitizeTextS_ne_empty {y : String} (h : y ≠ "") : sanitizeTextS y ≠ "" := by
  intro he
  apply h
  have hlen : (sanitizeTextS y).length = 0 := by rw [he]; rfl
  rw [sanitizeTextS_length] at hlen
  have hdata : y.data = [] := List.length_eq_zero.mp hlen
  cases y
  simp at hdata
  rw [hdata]

theorem sanitize_ellipsis : sanitizeTextS ellipsisText = ellipsisText := by decide

theorem extract_of_noText {p : Option JVal} (h : yieldsNoText p) :
    extractTextVal p = JVal.str ellipsisText := by
  cases p with
  | none => rfl
  | some d =>
    cases d with
    | null => rfl
    | bool b => rfl
    | num q => rfl
    | str s => rfl
    | arr l => rfl
    | obj kvs =>
      unfold yieldsNoText at h
      rcases h with hnull | ⟨h1, h2⟩
      · exact absurd hnull (by simp)
      · show (match propOf (JVal.obj kvs) ("output_text") with
          | some v => if truthy v then v else nestedOr (JVal.obj kvs)
          | none => nestedOr (JVal.obj kvs)) = JVal.str ellipsisText
        have hnested : nestedOr (JVal.obj kvs) = JVal.str ellipsisText := by
          unfold nestedOr
          cases hw : nestedPath (JVal.obj kvs) with
          | some w =>
            show (if truthy w = true then w else JVal.str ellipsisText) = JVal.str ellipsisText
            simp [h2 w hw]
          | none => rfl
        cases hv : propOf (JVal.obj kvs) ("output_text") with
        | some v =>
          show (if truthy v = true then v else nestedOr (JVal.obj kvs)) = JVal.str ellipsisText
          simp [h1 v hv, hnested]
        | none => exact hnested

/-- C1: for every input string, sanitizeText replaces, in each case-insensitive
whole-word occurrence of a banned term, every vowel with an asterisk, preserves
every non-vowel character including its case, leaves text outside matched
occurrences unchanged, and does not mask a banned term occurring only as a
proper substring of a larger word: the output equals the spec-side description
sanitizeSpec, which masks exactly the vowels lying inside whole-word
occurrences and keeps every other position of the input. -/
theorem claim_C1_sanitize_whole_word (x : String) :
    (sanitizeTextS x).data = sanitizeSpec x.data := by
  rw [sanitizeTextS_data, sanitizeList_eq_spec]

/-- C4: sanitizeText is idempotent. -/
theorem claim_C4_sanitize_idempotent (x : String) :
    sanitizeTextS (sanitizeTextS x) = sanitizeTextS x :=
  sanitizeTextS_idem x

/-- C9: sanitizeText is length-preserving: each masked vowel becomes exactly one
asterisk and every other character is kept. -/
theorem claim_C9_sanitize_length (x : String) :
    (sanitizeTextS x).length = x.length :=
  sanitizeTextS_length x

/-- C2 counterexample: an upstream success response whose body fails to parse as
JSON does not produce the fixed fallback sentence: the handler returns the
ellipsis placeholder, which differs from the (sanitized) fallback sentence. -/
theorem claim_C2_cex :
    continueHandler (UpstreamResponse.mk true ("not json") none) =
      ApiResponse.mk 200 none (some ("…")) ∧
    some ("…") ≠ some (sanitizeTextS fallbackSentence) := by
  constructor
  · decide
  · intro h
    have hl := congrArg String.length (Option.some.inj h)
    rw [sanitizeTextS_length] at hl
    exact absurd hl (by decide)

/-- C2 amended: when the upstream body fails to parse, or parses but yields no
truthy output_text and no truthy nested text, the handler returns the ellipsis
placeholder (sanitized, hence unchanged), not the fallback sentence; the fixed
fallback sentence is returned exactly when the extracted text is a string that
is empty or trims to empty; and in every success case the returned text field
is non-empty. -/
theorem claim_C2_amended (resp : UpstreamResponse) (hok : resp.ok = true) :
    (yieldsNoText resp.parsed →
      continueHandler resp = ApiResponse.mk 200 none (some ("…"))) ∧
    (∀ s : String, extractTextVal resp.parsed = JVal.str s → (s = "" ∨ jsTrim s = "") →
      continueHandler resp =
        ApiResponse.mk 200 none (some (sanitizeTextS fallbackSentence))) ∧
    (∀ t : String, (continueHandler resp).textField = some t →
      (continueHandler resp).status = 200 → t ≠ "") := by
  have hc : ¬(resp.ok = false) := by
    rw [hok]
    exact fun hcc => Bool.noConfusion hcc
  refine ⟨?_, ?_, ?_⟩
  · intro hyn
    unfold continueHandler
    rw [if_neg hc, extract_of_noText hyn]
    show ApiResponse.mk 200 none
        (some (sanitizeTextS
          (if ellipsisText = "" ∨ jsTrim ellipsisText = "" then fallbackSentence
           else ellipsisText))) = _
    rw [if_neg (by decide), sanitize_ellipsis]
    rfl
  · intro s hs hblank
    unfold continueHandler
    rw [if_neg hc, hs]
    show ApiResponse.mk 200 none
        (some (sanitizeTextS (if s = "" ∨ jsTrim s = "" then fallbackSentence else s))) = _
    rw [if_pos hblank]
  · intro t htf hstat
    unfold continueHandler at htf hstat
    rw [if_neg hc] at htf hstat
    cases hx : extractTextVal resp.parsed with
    | str s =>
      rw [hx] at htf
      have ht' : sanitizeTextS (if s = "" ∨ jsTrim s = "" then fallbackSentence else s) = t := by
        simpa using htf
      have harg : (if s = "" ∨ jsTrim s = "" then fallbackSentence else s) ≠ "" := by
        split
        · decide
        · next hn =>
            push_neg at hn
            exact hn.1
      exact fun hte => (sanitizeTextS_ne_empty harg) (ht' ▸ hte)
    | null => rw [hx] at hstat; simp at hstat
    | bool b => rw [hx] at hstat; simp at hstat
    | num q => rw [hx] at hstat; simp at hstat
    | arr l => rw [hx] at hstat; simp at hstat
    | obj kvs => rw [hx] at hstat; simp at hstat

/-- C2 amended witness: a concrete unparseable body yields the ellipsis text. -/
theorem claim_C2_amended_witness :
    continueHandler (UpstreamResponse.mk true ("x") none) =
      ApiResponse.mk 200 none (some ("…")) :=
  (claim_C2_amended (UpstreamResponse.mk true ("x") none) rfl).1 trivial

/-- C3 counterexample: the default instruction text differs from the level-3
instruction text, so an out-of-range drama value does not receive the level-3
instruction. -/
theorem claim_C3_cex : dramaInstructions ("9") ≠ dramaInstructions ("3") := by decide

/-- C3 amended: levels 1 to 5 map to temperatures 0.4, 0.55, 0.7, 0.85, 1.0;
every other input maps to temperature 0.70 and the fixed default instruction
text, which differs in wording from the level-3 instruction text. -/
theorem claim_C3_amended :
    (mapDramaToTemp ("1") = 0.4 ∧ mapDramaToTemp ("2") = 0.55 ∧
      mapDramaToTemp ("3") = 0.7 ∧ mapDramaToTemp ("4") = 0.85 ∧
      mapDramaToTemp ("5") = 1.0) ∧
    (∀ d : String, ¬(d = "1" ∨ d = "2" ∨ d = "3" ∨ d = "4" ∨ d = "5") →
      mapDramaToTemp d = 0.7 ∧
        dramaInstructions d =
          ("Narration style: Balanced detail, engaging but not theatrical.")) ∧
    ("Narration style: Balanced detail, engaging but not theatrical.") ≠
      dramaInstructions ("3") := by
  refine ⟨⟨rfl, rfl, rfl, rfl, rfl⟩, ?_, by decide⟩
  intro d hd
  push_neg at hd
  obtain ⟨h1, h2, h3, h4, h5⟩ := hd
  constructor
  · unfold mapDramaToTemp
    rw [if_neg h1, if_neg h2, if_neg h3, if_neg h4, if_neg h5]
  · unfold dramaInstructions
    rw [if_neg h1, if_neg h2, if_neg h3, if_neg h4, if_neg h5]

/-- C3 amended witness: the out-of-range value nine gets temperature 0.70 and
the default instruction text. -/
theorem claim_C3_witness :
    mapDramaToTemp ("9") = 0.7 ∧
      dramaInstructions ("9") =
        ("Narration style: Balanced detail, engaging but not theatrical.") :=
  claim_C3_amended.2.1 ("9") (by decide)

/-- C5: the assembled message sequence is the composed system message first
(base style, then the mood clause exactly when the mood is present, truthy and
not the default sentinel, then the drama instruction), then the caller history
in order, then the user turn last. -/
theorem claim_C5_messages (history : List ChatMsg) (userTurn : String) (mood : Option String)
    (drama : String) :
    continueMessages history userTurn mood drama =
      ChatMsg.mk ("system")
          (baseStyle ++ styleMood (mood.getD ("default")) ++ ("\n\n") ++
            dramaInstructions drama) ::
        (history ++ [ChatMsg.mk ("user") userTurn]) ∧
    (continueMessages history userTurn mood drama).length = history.length + 2 ∧
    ((mood.getD ("default") ≠ "" ∧ mood.getD ("default") ≠ "default") →
      styleMood (mood.getD ("default")) = moodClause (mood.getD ("default"))) ∧
    (¬(mood.getD ("default") ≠ "" ∧ mood.getD ("default") ≠ "default") →
      styleMood (mood.getD ("default")) = "") := by
  refine ⟨rfl, by simp [continueMessages], ?_, ?_⟩
  · intro h
    unfold styleMood
    rw [if_pos h]
  · intro h
    unfold styleMood
    rw [if_neg h]

/-- C5 witness: a concrete non-default mood produces the mood clause. -/
theorem claim_C5_witness : styleMood ("noir") = moodClause ("noir") :=
  (claim_C5_messages [] ("x") (some ("noir")) ("3")).2.2.1 (by decide)

/-- C6: a non-success upstream response yields the 500 envelope whose error
value carries the raw upstream body; the handler is a total function of one
upstream response, so no retry happens and no exception escapes. -/
theorem claim_C6_upstream_error (resp : UpstreamResponse) (hfail : resp.ok = false) :
    continueHandler resp =
      ApiResponse.mk 500 (some (("OpenAI error: ") ++ resp.raw)) none := by
  unfold continueHandler
  rw [if_pos hfail]

/-- C6 witness: a concrete failing upstream response. -/
theorem claim_C6_witness :
    continueHandler (UpstreamResponse.mk false ("boom") none) =
      ApiResponse.mk 500 (some (("OpenAI error: ") ++ ("boom"))) none :=
  claim_C6_upstream_error (UpstreamResponse.mk false ("boom") none) rfl

/-- C7 counterexample: the upstream-error failure response carries no text
field at all, refuting that every failure response contains one. -/
theorem claim_C7_cex :
    (continueHandler (UpstreamResponse.mk false ("x") none)).status = 500 ∧
    (continueHandler (UpstreamResponse.mk false ("x") none)).textField = none := by decide

/-- C7 amended: every 500 failure response of the handler either comes from an
upstream non-success and carries only an error value with no text field, or
comes from the outer catch and carries the fixed server-fallback text. -/
theorem claim_C7_amended (resp : UpstreamResponse)
    (hfail : (continueHandler resp).status = 500) :
    (resp.ok = false ∧ (continueHandler resp).textField = none) ∨
    (resp.ok = true ∧ (continueHandler resp).textField = some ("(Server fallback)")) := by
  cases hb : resp.ok with
  | false =>
    left
    refine ⟨rfl, ?_⟩
    unfold continueHandler
    rw [if_pos hb]
  | true =>
    right
    refine ⟨rfl, ?_⟩
    have hc : ¬(resp.ok = false) := by
      rw [hb]
      exact fun hcc => Bool.noConfusion hcc
    unfold continueHandler at hfail ⊢
    rw [if_neg hc] at hfail ⊢
    cases hx : extractTextVal resp.parsed with
    | str s =>
      rw [hx] at hfail
      exact absurd hfail (by simp)
    | null => rfl
    | bool b => rfl
    | num q => rfl
    | arr l => rfl
    | obj kvs => rfl

/-- C7 amended witness: a concrete upstream failure carries no text field. -/
theorem claim_C7_witness :
    ((UpstreamResponse.mk false ("x") none).ok = false ∧
      (continueHandler (UpstreamResponse.mk false ("x") none)).textField = none) ∨
    ((UpstreamResponse.mk false ("x") none).ok = true ∧
      (continueHandler (UpstreamResponse.mk false ("x") none)).textField =
        some ("(Server fallback)")) :=
  claim_C7_amended (UpstreamResponse.mk false ("x") none) (by decide)

/-- C8: absent or empty input passes through sanitizeText unchanged; the
function is total, so no input raises an error. -/
theorem claim_C8_passthrough (x : Option String) (h : x = none ∨ x = some ("")) :
    sanitizeTextO x = x := by
  rcases h with rfl | rfl
  · rfl
  · rfl

/-- C8 witness: the absent input passes through. -/
theorem claim_C8_witness : sanitizeTextO none = none :=
  claim_C8_passthrough none (Or.inl rfl)

/-- C10: the share handler stores Number of drama when that coercion is truthy
and three otherwise: NaN (absent or non-numeric) and zero become three, any
other numeric value, including out-of-range nine, passes through unclamped,
unlike the narration endpoint which maps nine to the default temperature. -/
theorem claim_C10_share_drama :
    shareStoredDrama none = 3 ∧ shareStoredDrama (some 0) = 3 ∧
      (∀ q : ℚ, q ≠ 0 → shareStoredDrama (some q) = q) ∧
      shareStoredDrama (some 9) = 9 ∧ mapDramaToTemp ("9") = 0.7 := by
  refine ⟨rfl, by norm_num [shareStoredDrama], ?_, by norm_num [shareStoredDrama], rfl⟩
  intro q hq
  show (if q = 0 then 3 else q) = q
  rw [if_neg hq]

/-- C10 witness: nine is stored unclamped. -/
theorem claim_C10_witness : shareStoredDrama (some 9) = 9 :=
  claim_C10_share_drama.2.2.1 9 (by norm_num)

end StoryGame
